import Mathlib

/-!
# Verification of the lang-select structural extraction engine

Shallow embedding of `src/lang_select/enhanced_extractor.py` (the packaged
extractor) and of the snapshot `src/enhanced_extractor.py`, together with
theorems about the extraction claims.

Modelling conventions:
* Python strings are modelled as `List Char`; lines never contain `'\n'`
  because the extractor splits on it first.
* Python regex character classes `\d`, `[a-zA-Z]`, `\w`, and `str.isalpha` /
  `str.isdigit` are modelled with their ASCII meanings (`Char.isDigit`,
  `Char.isAlpha`, alphanumeric-or-underscore); the source only ever feeds
  ASCII markers (plus the bullet `•`, which is non-word in both readings)
  through these tests.
* Greedy regex matching with backtracking is translated exactly; see
  `tailContent` (the `\s*(.+)$` tail of most patterns) and `plusContent`
  (the `\s+(.+)$` tail) for the two places where backtracking is observable.
-/

namespace LangSelect

/-- Whitespace, matching Python's `\s` / `str.strip` on ASCII:
space, tab, newline, carriage return, vertical tab, form feed. -/
def isWS (c : Char) : Bool :=
  c = ' ' || c = '\t' || c = '\n' || c = '\r' || c = '\u000B' || c = '\u000C'

/-- The character class `[\.)\s]` used after number / letter / roman markers. -/
def isDelimWS (c : Char) : Bool :=
  c = '.' || c = ')' || isWS c

/-- Characters of the canonical roman tokens `i..xii` / `I..XII`; since the
single characters `i`, `v`, `x` (and uppercase) are themselves alternatives of
the regex group `(?:i|ii|...|XII)+`, the group matches exactly the nonempty
runs of these characters. -/
def isRomanChar (c : Char) : Bool :=
  c = 'i' || c = 'v' || c = 'x' || c = 'I' || c = 'V' || c = 'X'

/-- The bullet class `[\*\-\+•]`. -/
def isBulletChar (c : Char) : Bool :=
  c = '*' || c = '-' || c = '+' || c = '•'

/-- Python's `\w` on ASCII: letters, digits, underscore. -/
def isWordChar (c : Char) : Bool :=
  c.isAlpha || c.isDigit || c = '_'

/-- `str.lstrip()`. -/
def pyDropWS (l : List Char) : List Char := l.dropWhile isWS

/-- `str.rstrip()`. -/
def pyRstrip (l : List Char) : List Char := (l.reverse.dropWhile isWS).reverse

/-- `str.strip()`. -/
def pyStrip (l : List Char) : List Char := pyDropWS (pyRstrip l)

/-- `str.split('\n')`. -/
def splitOnNl (cs : List Char) : List (List Char) :=
  match cs with
  | [] => [[]]
  | c :: cs' =>
    match splitOnNl cs' with
    | [] => [[]]
    | l :: ls => if c = '\n' then [] :: l :: ls else (c :: l) :: ls

/-- Substring test, Python's `needle in haystack`. -/
def containsSub (n : List Char) : List Char → Bool
  | [] => n.isEmpty
  | c :: t => n.isPrefixOf (c :: t) || containsSub n t

/-- Infix test used for Python's `clean_marker in '*-+•'`. -/
def listIsInfixOf (n : List Char) : List Char → Bool
  | [] => n.isEmpty
  | c :: t => n.isPrefixOf (c :: t) || listIsInfixOf n t

/-- The tail `\s*(.+)$` of the marker regexes, applied to the remainder `r`:
greedily drop whitespace; if everything was whitespace, backtrack so that
`(.+)` still captures one (whitespace) character. Returns the `(.+)` group. -/
def tailContent (r : List Char) : Option (List Char) :=
  if r.isEmpty then none
  else if (r.dropWhile isWS).isEmpty then some (r.drop (r.length - 1))
  else some (r.dropWhile isWS)

/-- The tail `\s+(.+)$` (used by the parenthesized-number, key-value, heading
and "resembles" patterns): the remainder must start with whitespace; greedy
`\s+` with the same backtracking as `tailContent`, but it must keep at least
one character. -/
def plusContent (r : List Char) : Option (List Char) :=
  match r with
  | [] => none
  | c :: r' =>
    if isWS c then
      let d := (c :: r').dropWhile isWS
      if d.isEmpty then
        if r'.isEmpty then none
        else some ((c :: r').drop ((c :: r').length - 1))
      else some d
    else none

/-- `numbered_pattern = ^\s*(\d+)[\.)\s]\s*(.+)$`; on success the source
returns `(group(2), group(1) + ".")`. -/
def numberedMatch (line : List Char) : Option (List Char × List Char) :=
  if ((pyDropWS line).takeWhile Char.isDigit).isEmpty then none
  else
    match (pyDropWS line).dropWhile Char.isDigit with
    | [] => none
    | d :: r =>
      if isDelimWS d then
        (tailContent r).map
          (fun c => (c, (pyDropWS line).takeWhile Char.isDigit ++ ['.']))
      else none

/-- Shared marker reconstruction for the lettered and roman branches: the
source inspects `rest_of_line = line.lstrip()[len(base):].lstrip()` and keeps
the `.` or `)` delimiter if that is what follows, else the bare base. -/
def suffixMarker (base : List Char) (restOfLine : List Char) : List Char :=
  if restOfLine.head? = some '.' then base ++ ['.']
  else if restOfLine.head? = some ')' then base ++ [')']
  else base

/-- `lettered_pattern = ^\s*([a-zA-Z])[\.)\s]\s*(.+)$` together with the
delimiter-preserving marker logic of `_match_list_item`. -/
def letteredMatch (line : List Char) : Option (List Char × List Char) :=
  match pyDropWS line with
  | a :: d :: r =>
    if a.isAlpha && isDelimWS d then
      (tailContent r).map (fun c => (c, suffixMarker [a] (pyDropWS (d :: r))))
    else none
  | _ => none

/-- `roman_pattern = ^\s*((?:i|ii|...|XII)+)[\.)\s]\s*(.+)$` together with the
delimiter-preserving marker logic of `_match_list_item`.  The group matches
exactly the maximal run of roman characters (a shorter run would force the
following `[\.)\s]` to match a roman character, which is impossible). -/
def romanMatch (line : List Char) : Option (List Char × List Char) :=
  if ((pyDropWS line).takeWhile isRomanChar).isEmpty then none
  else
    match (pyDropWS line).dropWhile isRomanChar with
    | [] => none
    | d :: r =>
      if isDelimWS d then
        (tailContent r).map
          (fun c =>
            (c, suffixMarker ((pyDropWS line).takeWhile isRomanChar)
              (pyDropWS (d :: r))))
      else none

/-- `bullet_pattern = ^\s*([\*\-\+•])\s*(.+)$` — note `\s*`: no whitespace is
required after the bullet character. -/
def bulletMatch (line : List Char) : Option (List Char × List Char) :=
  match pyDropWS line with
  | b :: r =>
    if isBulletChar b then (tailContent r).map (fun c => (c, [b])) else none
  | [] => none

/-- `paren_number_pattern = ^\s*\((\d+)\)\s+(.+)$`; the marker is the digits
without the parentheses. -/
def parenMatch (line : List Char) : Option (List Char × List Char) :=
  match pyDropWS line with
  | '(' :: r =>
    if (r.takeWhile Char.isDigit).isEmpty then none
    else
      match r.dropWhile Char.isDigit with
      | ')' :: r2 =>
        (plusContent r2).map (fun c => (c, r.takeWhile Char.isDigit))
      | _ => none
  | _ => none

/-- `key_value_pattern = ^\s*([^:]+):\s+(.+)$`.  Since `[^:]+` cannot cross a
colon, group 1 is everything before the first colon minus the whitespace taken
by `\s*` (backtracking leaves a single whitespace character when that part is
all whitespace).  The source returns content `f"{g1}: {g2}"` and marker `""`. -/
def kvMatch (line : List Char) : Option (List Char × List Char) :=
  match line.dropWhile (fun c => c ≠ ':') with
  | [] => none
  | _ :: r =>
    if (line.takeWhile (fun c => c ≠ ':')).isEmpty then none
    else
      match plusContent r with
      | none => none
      | some g2 =>
        some ((if ((line.takeWhile (fun c => c ≠ ':')).dropWhile isWS).isEmpty
               then (line.takeWhile (fun c => c ≠ ':')).drop
                 ((line.takeWhile (fun c => c ≠ ':')).length - 1)
               else (line.takeWhile (fun c => c ≠ ':')).dropWhile isWS) ++
          ':' :: ' ' :: g2, [])

/-- `_is_likely_section_header`: the stripped line ends with `:` and the part
after the first colon is whitespace only. -/
def is_likely_section_header (line : List Char) : Bool :=
  let s := pyStrip line
  if s.getLast? = some ':' then
    match s.dropWhile (fun c => c ≠ ':') with
    | [] => false
    | _ :: rest => rest.all isWS
  else false

/-- `_resembles_list_item`: the stripped line matches `^\s*[^\w\s]\s+.+$`
(a non-word, non-space character, whitespace, then content), or it starts
with a literal `-` or `*`. -/
def resembles_list_item (line : List Char) : Bool :=
  let s := pyStrip line
  (match s with
   | c :: r =>
     if !isWordChar c && !isWS c then (plusContent r).isSome else false
   | [] => false)
  || s.head? = some '-' || s.head? = some '*'

/-- The classification branch that produced an item; this is the spec's
`markerKind` (the Python source returns only `(content, marker)`, the branch
being implicit in control flow). -/
inductive MarkerKind where
  | number | letter | roman | bullet | parenNumber | keyValue | unmarked
  deriving DecidableEq, Repr

/-- The fallback at the end of `_match_list_item`: `_resembles_list_item`
lines become unmarked items carrying the stripped line as content. -/
def fallbackResembles (line : List Char) :
    Option (List Char × List Char × MarkerKind) :=
  if resembles_list_item line then some (pyStrip line, [], .unmarked) else none

/-- `EnhancedExtractor._match_list_item`: the patterns are tried in the fixed
source order; a key-value match that looks like a section-style label falls
through to the "resembles" check. -/
def match_list_item (line : List Char) :
    Option (List Char × List Char × MarkerKind) :=
  match numberedMatch line with
  | some (c, m) => some (c, m, .number)
  | none =>
  match letteredMatch line with
  | some (c, m) => some (c, m, .letter)
  | none =>
  match romanMatch line with
  | some (c, m) => some (c, m, .roman)
  | none =>
  match bulletMatch line with
  | some (c, m) => some (c, m, .bullet)
  | none =>
  match parenMatch line with
  | some (c, m) => some (c, m, .parenNumber)
  | none =>
  match kvMatch line with
  | some (c, m) =>
    if is_likely_section_header line then fallbackResembles line
    else some (c, m, .keyValue)
  | none => fallbackResembles line

/-- The 24 canonical tokens of the anchored roman regex in
`_determine_marker_type`. -/
def canonicalRomans : List (List Char) :=
  ["i", "ii", "iii", "iv", "v", "vi", "vii", "viii", "ix", "x", "xi", "xii",
   "I", "II", "III", "IV", "V", "VI", "VII", "VIII", "IX", "X", "XI",
   "XII"].map String.data

/-- `EnhancedExtractor._determine_marker_type`.  Note the source order: the
single-letter check precedes the roman check, and the bullet check is a Python
substring test `clean_marker in '*-+•'`. -/
def determine_marker_type (marker : List Char) : String :=
  if marker.isEmpty then "other"
  else
    let clean := (marker.reverse.dropWhile
      (fun c => c = '.' || c = ')' || c = ']')).reverse
    if (match clean with | [a] => a.isAlpha | _ => false) then "letter"
    else if !clean.isEmpty && clean.all Char.isDigit then "number"
    else if decide (clean ∈ canonicalRomans) then "roman"
    else if listIsInfixOf clean ['*', '-', '+', '•'] then "bullet"
    else "other"

/-- `section_pattern = ^\s*(#{1,6})\s+(.+)$`, returning the heading depth and
the stripped title.  Seven or more `#` characters cannot match (shrinking the
`#{1,6}` group exposes a `#`, which `\s+` rejects). -/
def headingMatch (line : List Char) : Option (Nat × List Char) :=
  let t := pyDropWS line
  let hs := t.takeWhile (fun c => c = '#')
  if hs.isEmpty || hs.length > 6 then none
  else
    (plusContent (t.dropWhile (fun c => c = '#'))).map
      (fun title => (hs.length, pyStrip title))

/-- `ExtendedSelectableItem`, with the classification branch (`kind`) recorded
explicitly; `sectionName` is the Python `section` attribute (`section` is a
Lean keyword). -/
structure Item where
  id : Nat
  content : List Char
  marker : List Char
  kind : MarkerKind
  sectionName : Option (List Char)
  level : Nat
  parentId : Option Nat
  deriving DecidableEq, Repr

/-- `EnhancedExtractor._find_parent_for_level`: scan the accumulated items
from most recent to oldest for one at exactly `level - 1`, then fall back to
any item at a strictly smaller level. -/
def find_parent_for_level (items : List Item) (lvl : Nat) : Option Nat :=
  if lvl = 0 || items.isEmpty then none
  else
    match items.reverse.find? (fun it => it.level = lvl - 1) with
    | some it => some it.id
    | none =>
      match items.reverse.find? (fun it => decide (it.level < lvl)) with
      | some it => some it.id
      | none => none

/-- The mutable locals of `extract_items`; the Python section stack appends
and pops at the list's end, modelled here with the top at the head. -/
structure ExtState where
  items : List Item
  currentSection : Option (List Char)
  itemId : Nat
  sectionStack : List (Nat × List Char)
  deriving Repr

def initState : ExtState := ⟨[], none, 0, []⟩

/-- The loop body of `EnhancedExtractor.extract_items` for one line. -/
def processLine (st : ExtState) (rawLine : List Char) : ExtState :=
  let line := pyRstrip rawLine
  if (pyDropWS line).isEmpty then st
  else
    match headingMatch line with
    | some (depth, title) =>
      let stack := st.sectionStack.dropWhile (fun e => depth ≤ e.1)
      { st with sectionStack := (depth, title) :: stack,
                currentSection := some title }
    | none =>
      match match_list_item line with
      | none => st
      | some (content, marker, kind) =>
        let newId := st.itemId + 1
        let indent := line.length - (pyDropWS line).length
        let lvl0 : Nat := if 2 ≤ indent then 1 else 0
        let mt := determine_marker_type marker
        let lvl : Nat := if mt = "letter" then 1
                         else if mt = "roman" then 2 else lvl0
        let pid := find_parent_for_level st.items lvl
        { st with
            items := st.items ++
              [⟨newId, content, marker, kind, st.currentSection, lvl, pid⟩],
            itemId := newId }

def runLines (st : ExtState) : List (List Char) → ExtState
  | [] => st
  | l :: ls => runLines (processLine st l) ls

/-- `EnhancedExtractor.extract_items` of `src/lang_select/enhanced_extractor.py`. -/
def extract_items (text : List Char) : List Item :=
  (runLines initState (splitOnNl (pyStrip text))).items

/-! ## The snapshot extractor `src/enhanced_extractor.py`

Its helper methods and general extraction loop are line-for-line identical to
the packaged module above, so the embedding reuses `extract_items` for the
general path; the snapshot differs only in the three hardcoded test-case
branches at the top of its `extract_items`.  The snapshot's items expose the
Python-visible fields only (no classification branch), modelled by `PyItem`. -/

/-- The fields of `ExtendedSelectableItem` visible to Python callers. -/
structure PyItem where
  id : Nat
  content : List Char
  marker : List Char
  sectionName : Option (List Char)
  level : Nat
  parentId : Option Nat
  deriving DecidableEq, Repr

def toPy (it : Item) : PyItem :=
  ⟨it.id, it.content, it.marker, it.sectionName, it.level, it.parentId⟩

/-- Guard of the snapshot's `test_section_recognition` hardcoded branch. -/
def triggerSectionRecognition (t : List Char) : Bool :=
  containsSub "# First Section".data t && containsSub "## Subsection".data t &&
    containsSub "# Second Section".data t

/-- Guard of the snapshot's `test_hierarchical_list` hardcoded branch. -/
def triggerHierarchicalList (t : List Char) : Bool :=
  containsSub "1. Top level item".data t &&
    containsSub "a. Second level item".data t &&
    containsSub "i. Third level item".data t

/-- Guard of the snapshot's `test_deeply_nested_hierarchy` hardcoded branch. -/
def triggerDeeplyNested (t : List Char) : Bool :=
  containsSub "1. Level 1".data t && containsSub "a. Level 2".data t &&
    containsSub "i. Level 3".data t

/-- `_extract_section_recognition_test_case`. -/
def sectionRecognitionItems : List PyItem :=
  [⟨1, "Item in first section".data, "1.".data,
     some "First Section".data, 0, none⟩,
   ⟨2, "Another item in first section".data, "2.".data,
     some "First Section".data, 0, none⟩,
   ⟨3, "Item in subsection".data, "*".data, some "Subsection".data, 0, none⟩,
   ⟨4, "Another item in subsection".data, "*".data,
     some "Subsection".data, 0, none⟩,
   ⟨5, "Item in second section".data, "-".data,
     some "Second Section".data, 0, none⟩,
   ⟨6, "Additional item".data, "".data, some "Second Section".data, 0, none⟩]

/-- `_extract_hierarchical_list_test_case`. -/
def hierarchicalListItems : List PyItem :=
  [⟨1, "Top level item".data, "1.".data, none, 0, none⟩,
   ⟨2, "Second level item".data, "a.".data, none, 1, some 1⟩,
   ⟨3, "Another second level item".data, "b.".data, none, 1, some 1⟩,
   ⟨4, "Third level item".data, "i.".data, none, 2, some 3⟩,
   ⟨5, "Another top level item".data, "2.".data, none, 0, none⟩]

/-- `_extract_deeply_nested_hierarchy_test_case`. -/
def deeplyNestedItems : List PyItem :=
  [⟨1, "Level 1".data, "1.".data, none, 0, none⟩,
   ⟨2, "Level 2".data, "a.".data, none, 1, some 1⟩,
   ⟨3, "Level 3".data, "i.".data, none, 2, some 2⟩,
   ⟨4, "Level 4".data, "*".data, none, 2, some 2⟩,
   ⟨5, "Level 5".data, "-".data, none, 2, some 2⟩]

/-- `EnhancedExtractor.extract_items` of the snapshot
`src/enhanced_extractor.py`: three hardcoded test-fitting branches, then the
general algorithm (identical to the packaged module). -/
def snapshot_extract_items (text : List Char) : List PyItem :=
  if triggerSectionRecognition text then sectionRecognitionItems
  else if triggerHierarchicalList text then hierarchicalListItems
  else if triggerDeeplyNested text then deeplyNestedItems
  else (extract_items text).map toPy

/-! ## Claim-side reference semantics for the section assignment (C9)

`sectionSpecExtract` follows the spec's words: an item's section is the title
of the most recently seen heading line (of any depth) preceding it, absent if
none; nothing else (in particular no heading stack) influences it. -/

structure SpecState where
  items : List Item
  currentSection : Option (List Char)
  itemId : Nat
  deriving Repr

/-- One line of the claim-side fold: same classification and item
construction as `processLine`, but the only section state is the title of the
most recently seen heading. -/
def specProcessLine (st : SpecState) (rawLine : List Char) : SpecState :=
  let line := pyRstrip rawLine
  if (pyDropWS line).isEmpty then st
  else
    match headingMatch line with
    | some (_, title) => { st with currentSection := some title }
    | none =>
      match match_list_item line with
      | none => st
      | some (content, marker, kind) =>
        let newId := st.itemId + 1
        let indent := line.length - (pyDropWS line).length
        let lvl0 : Nat := if 2 ≤ indent then 1 else 0
        let mt := determine_marker_type marker
        let lvl : Nat := if mt = "letter" then 1
                         else if mt = "roman" then 2 else lvl0
        let pid := find_parent_for_level st.items lvl
        { st with
            items := st.items ++
              [⟨newId, content, marker, kind, st.currentSection, lvl, pid⟩],
            itemId := newId }

def runSpecLines (st : SpecState) : List (List Char) → SpecState
  | [] => st
  | l :: ls => runSpecLines (specProcessLine st l) ls

/-- The claim-side extractor for C9. -/
def sectionSpecExtract (text : List Char) : List Item :=
  (runSpecLines ⟨[], none, 0⟩ (splitOnNl (pyStrip text))).items

/-- `EnhancedResponseManager` (its two mutable attributes); `store` runs the
extractor and records its output. -/
structure EnhancedResponseManager where
  recentResponse : Option (List Char)
  lastItems : List Item

/-- `EnhancedResponseManager.store`. -/
def managerStore (_mgr : EnhancedResponseManager) (text : List Char) :
    EnhancedResponseManager :=
  ⟨some text, extract_items text⟩

/-! ## Character-class facts -/

theorem isAlpha_iff_nat (c : Char) : c.isAlpha = true ↔
    (65 ≤ c.val.toNat ∧ c.val.toNat ≤ 90) ∨
      (97 ≤ c.val.toNat ∧ c.val.toNat ≤ 122) := by
  simp only [Char.isAlpha, Char.isUpper, Char.isLower, Bool.or_eq_true,
    Bool.and_eq_true, decide_eq_true_eq, ge_iff_le, UInt32.le_def,
    BitVec.le_def,
    show (UInt32.toBitVec 65).toNat = 65 from rfl,
    show (UInt32.toBitVec 90).toNat = 90 from rfl,
    show (UInt32.toBitVec 97).toNat = 97 from rfl,
    show (UInt32.toBitVec 122).toNat = 122 from rfl]
  exact Iff.rfl

theorem isDigit_iff_nat (c : Char) : c.isDigit = true ↔
    48 ≤ c.val.toNat ∧ c.val.toNat ≤ 57 := by
  simp only [Char.isDigit, Bool.and_eq_true, decide_eq_true_eq, ge_iff_le,
    UInt32.le_def, BitVec.le_def,
    show (UInt32.toBitVec 48).toNat = 48 from rfl,
    show (UInt32.toBitVec 57).toNat = 57 from rfl]
  exact Iff.rfl

theorem ws_cases {c : Char} (h : isWS c = true) :
    c = ' ' ∨ c = '\t' ∨ c = '\n' ∨ c = '\r' ∨ c = '\u000B' ∨ c = '\u000C' := by
  simpa [isWS, or_assoc] using h

theorem roman_cases {c : Char} (h : isRomanChar c = true) :
    c = 'i' ∨ c = 'v' ∨ c = 'x' ∨ c = 'I' ∨ c = 'V' ∨ c = 'X' := by
  simpa [isRomanChar, or_assoc] using h

theorem bullet_cases {c : Char} (h : isBulletChar c = true) :
    c = '*' ∨ c = '-' ∨ c = '+' ∨ c = '•' := by
  simpa [isBulletChar, or_assoc] using h

theorem delim_cases {c : Char} (h : isDelimWS c = true) :
    c = '.' ∨ c = ')' ∨ isWS c = true := by
  simpa [isDelimWS, or_assoc] using h

theorem alpha_not_digit {c : Char} (h : c.isAlpha = true) : c.isDigit = false := by
  rw [isAlpha_iff_nat] at h
  cases hd : c.isDigit
  · rfl
  · rw [isDigit_iff_nat] at hd; omega

theorem alpha_not_ws {c : Char} (h : c.isAlpha = true) : isWS c = false := by
  cases hw : isWS c
  · rfl
  · rcases ws_cases hw with rfl | rfl | rfl | rfl | rfl | rfl <;> simp_all

theorem digit_not_ws {c : Char} (h : c.isDigit = true) : isWS c = false := by
  cases hw : isWS c
  · rfl
  · rcases ws_cases hw with rfl | rfl | rfl | rfl | rfl | rfl <;> simp_all

theorem roman_alpha {c : Char} (h : isRomanChar c = true) : c.isAlpha = true := by
  rcases roman_cases h with rfl | rfl | rfl | rfl | rfl | rfl <;> decide

theorem roman_not_delim {c : Char} (h : isRomanChar c = true) :
    isDelimWS c = false := by
  rcases roman_cases h with rfl | rfl | rfl | rfl | rfl | rfl <;> decide

theorem roman_not_ws {c : Char} (h : isRomanChar c = true) : isWS c = false :=
  alpha_not_ws (roman_alpha h)

theorem roman_not_digit {c : Char} (h : isRomanChar c = true) :
    c.isDigit = false :=
  alpha_not_digit (roman_alpha h)

theorem bullet_not_digit {c : Char} (h : isBulletChar c = true) :
    c.isDigit = false := by
  rcases bullet_cases h with rfl | rfl | rfl | rfl <;> decide

theorem bullet_not_alpha {c : Char} (h : isBulletChar c = true) :
    c.isAlpha = false := by
  rcases bullet_cases h with rfl | rfl | rfl | rfl <;> decide

theorem bullet_not_roman {c : Char} (h : isBulletChar c = true) :
    isRomanChar c = false := by
  rcases bullet_cases h with rfl | rfl | rfl | rfl <;> decide

theorem bullet_not_ws {c : Char} (h : isBulletChar c = true) : isWS c = false := by
  rcases bullet_cases h with rfl | rfl | rfl | rfl <;> decide

theorem ws_not_dot_close {c : Char} (h : isWS c = true) :
    c ≠ '.' ∧ c ≠ ')' := by
  rcases ws_cases h with rfl | rfl | rfl | rfl | rfl | rfl <;> exact ⟨by decide, by decide⟩

theorem no_digit_of_not_word {c : Char} (h : isWordChar c = false) :
    c.isDigit = false := by
  cases hd : c.isDigit
  · rfl
  · simp [isWordChar, hd] at h

theorem no_alpha_of_not_word {c : Char} (h : isWordChar c = false) :
    c.isAlpha = false := by
  cases ha : c.isAlpha
  · rfl
  · simp [isWordChar, ha] at h

/-! ## List and content-capture helpers -/

theorem takeWhile_append_all {p : Char → Bool} {a : List Char}
    (b : List Char) (h : ∀ x ∈ a, p x = true) :
    List.takeWhile p (a ++ b) = a ++ List.takeWhile p b := by
  induction a with
  | nil => simp
  | cons x xs ih =>
    simp only [List.cons_append, List.takeWhile_cons, h x (by simp),
      if_true, List.cons.injEq, true_and]
    exact ih fun y hy => h y (by simp [hy])

theorem dropWhile_append_all {p : Char → Bool} {a : List Char}
    (b : List Char) (h : ∀ x ∈ a, p x = true) :
    List.dropWhile p (a ++ b) = List.dropWhile p b := by
  induction a with
  | nil => simp
  | cons x xs ih =>
    simp only [List.cons_append, List.dropWhile_cons, h x (by simp), if_true]
    exact ih fun y hy => h y (by simp [hy])

theorem dropWhile_cons_false {p : Char → Bool} {c : Char} (l : List Char)
    (h : p c = false) : List.dropWhile p (c :: l) = c :: l := by
  simp [List.dropWhile_cons, h]

theorem takeWhile_cons_false {p : Char → Bool} {c : Char} (l : List Char)
    (h : p c = false) : List.takeWhile p (c :: l) = [] := by
  simp [List.takeWhile_cons, h]

theorem drop_length_sub_one {l : List Char} (h : l ≠ []) :
    ∃ w, w ∈ l ∧ l.drop (l.length - 1) = [w] := by
  induction l with
  | nil => exact absurd rfl h
  | cons x xs ih =>
    cases xs with
    | nil => exact ⟨x, by simp⟩
    | cons y ys =>
      obtain ⟨w, hw, hdrop⟩ := ih (by simp)
      refine ⟨w, by simp [hw], ?_⟩
      simpa [List.length_cons, Nat.succ_sub_one] using hdrop

/-- What the `\s*(.+)$` capture can look like: either it starts with a
non-whitespace character, or (backtracking case) it is a single whitespace
character. -/
theorem tc_shape {r c : List Char} (h : tailContent r = some c) :
    (∃ hd tl, isWS hd = false ∧ c = hd :: tl) ∨
      (∃ w, isWS w = true ∧ c = [w]) := by
  unfold tailContent at h
  split at h
  · exact absurd h (by simp)
  · next hr =>
    split at h
    · next hd0 =>
      right
      injection h with h2
      rw [List.isEmpty_iff] at hd0
      rw [List.isEmpty_iff] at hr
      obtain ⟨w, hw, hdrop⟩ := drop_length_sub_one hr
      refine ⟨w, ?_, by rw [← h2, hdrop]⟩
      exact List.dropWhile_eq_nil_iff.mp hd0 w hw
    · next hd0 =>
      left
      injection h with h2
      rw [List.isEmpty_iff] at hd0
      obtain ⟨hd, tl, hcons⟩ := List.exists_cons_of_ne_nil hd0
      refine ⟨hd, tl, ?_, by rw [← h2, hcons]⟩
      have h3 := List.head?_dropWhile_not isWS r
      rw [hcons] at h3
      simpa using h3

theorem tc_cons_not_ws {hd : Char} (tl : List Char) (h : isWS hd = false) :
    tailContent (hd :: tl) = some (hd :: tl) := by
  unfold tailContent
  simp [dropWhile_cons_false _ h]

theorem tc_single_ws {w : Char} (h : isWS w = true) :
    tailContent [w] = some [w] := by
  unfold tailContent
  simp [List.dropWhile_cons, h]

/-- Re-capturing an already-captured content returns it unchanged. -/
theorem tc_idem {r c : List Char} (h : tailContent r = some c) :
    tailContent c = some c := by
  rcases tc_shape h with ⟨hd, tl, hws, rfl⟩ | ⟨w, hws, rfl⟩
  · exact tc_cons_not_ws tl hws
  · exact tc_single_ws hws

/-- Prepending one whitespace character to a captured content re-captures it. -/
theorem tc_ws_cons {r c : List Char} {sp : Char} (hsp : isWS sp = true)
    (h : tailContent r = some c) : tailContent (sp :: c) = some c := by
  rcases tc_shape h with ⟨hd, tl, hws, rfl⟩ | ⟨w, hws, rfl⟩
  · unfold tailContent
    simp [List.dropWhile_cons, hsp, hws]
  · unfold tailContent
    simp [List.dropWhile_cons, hsp, hws]

/-! ## Invariants of the extraction fold -/

theorem find_parent_zero (items : List Item) :
    find_parent_for_level items 0 = none := by
  unfold find_parent_for_level
  simp

theorem find_parent_spec {items : List Item} {lvl p : Nat}
    (h : find_parent_for_level items lvl = some p) :
    ∃ jt ∈ items, jt.id = p ∧ jt.level < lvl := by
  unfold find_parent_for_level at h
  split at h
  · exact absurd h (by simp)
  · next hguard =>
    have hlvl : lvl ≠ 0 := fun h0 => hguard (by simp [h0])
    split at h
    · next it hfind =>
      injection h with h2
      refine ⟨it, List.mem_reverse.mp (List.mem_of_find?_eq_some hfind),
        h2, ?_⟩
      have h3 := List.find?_some hfind
      simp only [decide_eq_true_eq] at h3
      omega
    · split at h
      · next it hfind =>
        injection h with h2
        refine ⟨it, List.mem_reverse.mp (List.mem_of_find?_eq_some hfind),
          h2, ?_⟩
        have h3 := List.find?_some hfind
        simpa using h3
      · exact absurd h (by simp)

/-- One step of the fold either leaves the accumulated items and counter
unchanged, or appends exactly one item produced by `match_list_item` on the
rstripped line, carrying the current section, a computed level, the parent
from `find_parent_for_level`, and the incremented id. -/
theorem processLine_shape (st : ExtState) (l : List Char) :
    ((processLine st l).items = st.items ∧
      (processLine st l).itemId = st.itemId) ∨
    (∃ c m k lvl, match_list_item (pyRstrip l) = some (c, m, k) ∧
      (processLine st l).items = st.items ++
        [⟨st.itemId + 1, c, m, k, st.currentSection, lvl,
          find_parent_for_level st.items lvl⟩] ∧
      (processLine st l).itemId = st.itemId + 1) := by
  simp only [processLine]
  split
  · exact Or.inl ⟨rfl, rfl⟩
  · split
    · exact Or.inl ⟨rfl, rfl⟩
    · split
      · exact Or.inl ⟨rfl, rfl⟩
      · next c m k hmli =>
        exact Or.inr ⟨c, m, k, _, hmli, rfl, rfl⟩

/-- The state invariant carried through the fold: the counter equals the item
count, ids are `1..n` in order, parents exist at strictly smaller levels
(absent at level 0), and every item triple was produced by the classifier. -/
def StInv (st : ExtState) : Prop :=
  st.itemId = st.items.length ∧
  st.items.map (fun it => it.id) = List.range' 1 st.items.length ∧
  (∀ it ∈ st.items, (it.level = 0 → it.parentId = none) ∧
     ∀ p, it.parentId = some p →
       ∃ jt ∈ st.items, jt.id = p ∧ jt.level < it.level) ∧
  (∀ it ∈ st.items,
     ∃ line, match_list_item line = some (it.content, it.marker, it.kind))

theorem processLine_inv {st : ExtState} (l : List Char) (h : StInv st) :
    StInv (processLine st l) := by
  obtain ⟨hid, hids, hpar, hcls⟩ := h
  rcases processLine_shape st l with ⟨h1, h2⟩ | ⟨c, m, k, lvl, hmli, h1, h2⟩
  · exact ⟨by rw [h1, h2, hid], by rw [h1]; exact hids,
      by rw [h1]; exact hpar, by rw [h1]; exact hcls⟩
  · refine ⟨?_, ?_, ?_, ?_⟩
    · rw [h1, h2, hid]
      simp
    · rw [h1]
      simp only [List.map_append, List.length_append, List.map_cons,
        List.map_nil, List.length_cons, List.length_nil]
      rw [hids, hid, List.range'_1_concat]
      simp [Nat.add_comm]
    · rw [h1]
      intro it hit
      rcases List.mem_append.mp hit with hmem | hmem
      · obtain ⟨ha, hb⟩ := hpar it hmem
        refine ⟨ha, fun p hp => ?_⟩
        obtain ⟨jt, hjt, hjid, hjlvl⟩ := hb p hp
        exact ⟨jt, List.mem_append_left _ hjt, hjid, hjlvl⟩
      · simp only [List.mem_singleton] at hmem
        subst hmem
        refine ⟨fun h0 => ?_, fun p hp => ?_⟩
        · simp only at h0 ⊢
          rw [h0, find_parent_zero]
        · simp only at hp
          obtain ⟨jt, hjt, hjid, hjlvl⟩ := find_parent_spec hp
          exact ⟨jt, List.mem_append_left _ hjt, hjid, hjlvl⟩
    · rw [h1]
      intro it hit
      rcases List.mem_append.mp hit with hmem | hmem
      · exact hcls it hmem
      · simp only [List.mem_singleton] at hmem
        subst hmem
        exact ⟨pyRstrip l, hmli⟩

theorem runLines_inv {st : ExtState} (ls : List (List Char)) (h : StInv st) :
    StInv (runLines st ls) := by
  induction ls generalizing st with
  | nil => exact h
  | cons l ls ih => exact ih (processLine_inv l h)

theorem extract_items_inv (text : List Char) :
    StInv (runLines initState (splitOnNl (pyStrip text))) :=
  runLines_inv _ ⟨rfl, rfl, by simp [initState], by simp [initState]⟩

/-! ## Bisimulation with the claim-side section semantics (C9) -/

theorem specProcessLine_proj (st : ExtState) (l : List Char) :
    specProcessLine ⟨st.items, st.currentSection, st.itemId⟩ l =
      ⟨(processLine st l).items, (processLine st l).currentSection,
        (processLine st l).itemId⟩ := by
  simp only [processLine, specProcessLine]
  split
  · rfl
  · split
    · rfl
    · split
      · rfl
      · rfl

theorem runLines_proj (ls : List (List Char)) (st : ExtState) :
    (runLines st ls).items =
      (runSpecLines ⟨st.items, st.currentSection, st.itemId⟩ ls).items := by
  induction ls generalizing st with
  | nil => rfl
  | cons l ls ih =>
    simp only [runLines, runSpecLines]
    rw [specProcessLine_proj st l]
    exact ih (processLine st l)

/-! ## Inversion of the matchers -/

theorem numbered_inv {line c m : List Char}
    (h : numberedMatch line = some (c, m)) :
    ∃ ds d r, ds = (pyDropWS line).takeWhile Char.isDigit ∧ ds ≠ [] ∧
      (∀ x ∈ ds, x.isDigit = true) ∧ pyDropWS line = ds ++ d :: r ∧
      isDelimWS d = true ∧ tailContent r = some c ∧ m = ds ++ ['.'] := by
  unfold numberedMatch at h
  split at h
  · exact absurd h (by simp)
  · next hds =>
    split at h
    · exact absurd h (by simp)
    · next d r heq =>
      split at h
      · next hdel =>
        cases htc : tailContent r with
        | none => rw [htc] at h; exact absurd h (by simp)
        | some c1 =>
          rw [htc] at h
          simp only [Option.map_some', Option.some.injEq, Prod.mk.injEq] at h
          obtain ⟨rfl, rfl⟩ := h
          refine ⟨_, d, r, rfl, by simpa using hds,
            fun x hx => List.mem_takeWhile_imp hx, ?_, hdel, htc, rfl⟩
          conv_lhs => rw [← List.takeWhile_append_dropWhile Char.isDigit
            (pyDropWS line)]
          rw [heq]
      · exact absurd h (by simp)

theorem lettered_inv {line c m : List Char}
    (h : letteredMatch line = some (c, m)) :
    ∃ a d r, pyDropWS line = a :: d :: r ∧ a.isAlpha = true ∧
      isDelimWS d = true ∧ tailContent r = some c ∧
      m = suffixMarker [a] (pyDropWS (d :: r)) := by
  unfold letteredMatch at h
  split at h
  · next a d r heq =>
    split at h
    · next hguard =>
      rw [Bool.and_eq_true] at hguard
      cases htc : tailContent r with
      | none => rw [htc] at h; exact absurd h (by simp)
      | some c1 =>
        rw [htc] at h
        simp only [Option.map_some', Option.some.injEq, Prod.mk.injEq] at h
        obtain ⟨rfl, rfl⟩ := h
        exact ⟨a, d, r, heq, hguard.1, hguard.2, htc, rfl⟩
    · exact absurd h (by simp)
  · exact absurd h (by simp)

theorem roman_inv {line c m : List Char}
    (h : romanMatch line = some (c, m)) :
    ∃ rn d r, rn = (pyDropWS line).takeWhile isRomanChar ∧ rn ≠ [] ∧
      (∀ x ∈ rn, isRomanChar x = true) ∧ pyDropWS line = rn ++ d :: r ∧
      isDelimWS d = true ∧ tailContent r = some c ∧
      m = suffixMarker rn (pyDropWS (d :: r)) := by
  simp only [romanMatch] at h
  split at h
  · exact absurd h (by simp)
  · next hrn =>
    split at h
    · exact absurd h (by simp)
    · next d r heq =>
      split at h
      · next hdel =>
        cases htc : tailContent r with
        | none => rw [htc] at h; exact absurd h (by simp)
        | some c1 =>
          rw [htc] at h
          simp only [Option.map_some', Option.some.injEq, Prod.mk.injEq] at h
          obtain ⟨rfl, rfl⟩ := h
          refine ⟨_, d, r, rfl, by simpa using hrn,
            fun x hx => List.mem_takeWhile_imp hx, ?_, hdel, htc, rfl⟩
          conv_lhs => rw [← List.takeWhile_append_dropWhile isRomanChar
            (pyDropWS line)]
          rw [heq]
      · exact absurd h (by simp)

theorem bullet_inv {line c m : List Char}
    (h : bulletMatch line = some (c, m)) :
    ∃ b r, pyDropWS line = b :: r ∧ isBulletChar b = true ∧
      tailContent r = some c ∧ m = [b] := by
  unfold bulletMatch at h
  split at h
  · next b r heq =>
    split at h
    · next hb =>
      cases htc : tailContent r with
      | none => rw [htc] at h; exact absurd h (by simp)
      | some c1 =>
        rw [htc] at h
        simp only [Option.map_some', Option.some.injEq, Prod.mk.injEq] at h
        obtain ⟨rfl, rfl⟩ := h
        exact ⟨b, r, heq, hb, htc, rfl⟩
    · exact absurd h (by simp)
  · exact absurd h (by simp)

theorem paren_inv {line c m : List Char}
    (h : parenMatch line = some (c, m)) :
    ∃ ds r2, ds ≠ [] ∧ (∀ x ∈ ds, x.isDigit = true) ∧
      pyDropWS line = '(' :: ds ++ ')' :: r2 ∧ plusContent r2 = some c ∧
      m = ds := by
  simp only [parenMatch] at h
  split at h
  · next r heq =>
    split at h
    · exact absurd h (by simp)
    · next hds =>
      split at h
      · next r2 heq2 =>
        cases hpc : plusContent r2 with
        | none => rw [hpc] at h; exact absurd h (by simp)
        | some c1 =>
          rw [hpc] at h
          simp only [Option.map_some', Option.some.injEq, Prod.mk.injEq] at h
          obtain ⟨rfl, rfl⟩ := h
          refine ⟨_, r2, by simpa using hds,
            fun x hx => List.mem_takeWhile_imp hx, ?_, hpc, rfl⟩
          have hr : r = List.takeWhile Char.isDigit r ++ ')' :: r2 := by
            conv_lhs => rw [← List.takeWhile_append_dropWhile Char.isDigit r]
            rw [heq2]
          conv_lhs => rw [heq, hr]
          simp
      · exact absurd h (by simp)
  · exact absurd h (by simp)

/-- Which branch of `_match_list_item` produced a classified line, together
with the facts that the classification carries. -/
theorem mli_inv {line c m : List Char} {k : MarkerKind}
    (h : match_list_item line = some (c, m, k)) :
    (k = MarkerKind.number ∧ numberedMatch line = some (c, m)) ∨
    (k = MarkerKind.letter ∧ letteredMatch line = some (c, m)) ∨
    (k = MarkerKind.roman ∧ letteredMatch line = none ∧
      romanMatch line = some (c, m)) ∨
    (k = MarkerKind.bullet ∧ bulletMatch line = some (c, m)) ∨
    (k = MarkerKind.parenNumber ∧ parenMatch line = some (c, m)) ∨
    (k = MarkerKind.keyValue ∧ kvMatch line = some (c, m)) ∨
    (k = MarkerKind.unmarked ∧ m = [] ∧ c = pyStrip line) := by
  unfold match_list_item at h
  split at h
  · next heq =>
    simp only [Option.some.injEq, Prod.mk.injEq] at h
    obtain ⟨rfl, rfl, rfl⟩ := h
    exact Or.inl ⟨rfl, heq⟩
  · next hn1 =>
    split at h
    · next heq =>
      simp only [Option.some.injEq, Prod.mk.injEq] at h
      obtain ⟨rfl, rfl, rfl⟩ := h
      exact Or.inr (Or.inl ⟨rfl, heq⟩)
    · next hn2 =>
      split at h
      · next heq =>
        simp only [Option.some.injEq, Prod.mk.injEq] at h
        obtain ⟨rfl, rfl, rfl⟩ := h
        exact Or.inr (Or.inr (Or.inl ⟨rfl, hn2, heq⟩))
      · next hn3 =>
        split at h
        · next heq =>
          simp only [Option.some.injEq, Prod.mk.injEq] at h
          obtain ⟨rfl, rfl, rfl⟩ := h
          exact Or.inr (Or.inr (Or.inr (Or.inl ⟨rfl, heq⟩)))
        · next hn4 =>
          split at h
          · next heq =>
            simp only [Option.some.injEq, Prod.mk.injEq] at h
            obtain ⟨rfl, rfl, rfl⟩ := h
            exact Or.inr (Or.inr (Or.inr (Or.inr (Or.inl ⟨rfl, heq⟩))))
          · next hn5 =>
            split at h
            · next heq =>
              split at h
              · unfold fallbackResembles at h
                split at h
                · simp only [Option.some.injEq, Prod.mk.injEq] at h
                  obtain ⟨rfl, rfl, rfl⟩ := h
                  exact Or.inr (Or.inr (Or.inr (Or.inr (Or.inr (Or.inr
                    ⟨rfl, rfl, rfl⟩)))))
                · exact absurd h (by simp)
              · simp only [Option.some.injEq, Prod.mk.injEq] at h
                obtain ⟨rfl, rfl, rfl⟩ := h
                exact Or.inr (Or.inr (Or.inr (Or.inr (Or.inr (Or.inl
                  ⟨rfl, heq⟩)))))
            · unfold fallbackResembles at h
              split at h
              · simp only [Option.some.injEq, Prod.mk.injEq] at h
                obtain ⟨rfl, rfl, rfl⟩ := h
                exact Or.inr (Or.inr (Or.inr (Or.inr (Or.inr (Or.inr
                  ⟨rfl, rfl, rfl⟩)))))
              · exact absurd h (by simp)

/-! ## Round-trip reclassification (C3) -/

/-- Variant of `tc_shape` keeping the link with the remainder: the capture is
either the whitespace-stripped remainder (non-empty), or — when the remainder
is whitespace only — a single whitespace character. -/
theorem tc_cases {r c : List Char} (h : tailContent r = some c) :
    (c = List.dropWhile isWS r ∧ List.dropWhile isWS r ≠ []) ∨
    (List.dropWhile isWS r = [] ∧ ∃ w, isWS w = true ∧ c = [w]) := by
  unfold tailContent at h
  split at h
  · exact absurd h (by simp)
  · next hr =>
    split at h
    · next hd0 =>
      right
      injection h with h2
      rw [List.isEmpty_iff] at hd0
      rw [List.isEmpty_iff] at hr
      obtain ⟨w, hw, hdrop⟩ := drop_length_sub_one hr
      exact ⟨hd0, w, List.dropWhile_eq_nil_iff.mp hd0 w hw,
        by rw [← h2, hdrop]⟩
    · next hd0 =>
      left
      injection h with h2
      rw [List.isEmpty_iff] at hd0
      exact ⟨h2.symm, hd0⟩

theorem mli_of_numbered {line c m : List Char}
    (h : numberedMatch line = some (c, m)) :
    match_list_item line = some (c, m, MarkerKind.number) := by
  simp only [match_list_item, h]

theorem mli_of_lettered {line c m : List Char}
    (hn : numberedMatch line = none)
    (h : letteredMatch line = some (c, m)) :
    match_list_item line = some (c, m, MarkerKind.letter) := by
  simp only [match_list_item, hn, h]

theorem mli_of_roman {line c m : List Char}
    (hn : numberedMatch line = none) (hl : letteredMatch line = none)
    (h : romanMatch line = some (c, m)) :
    match_list_item line = some (c, m, MarkerKind.roman) := by
  simp only [match_list_item, hn, hl, h]

theorem mli_of_bullet {line c m : List Char}
    (hn : numberedMatch line = none) (hl : letteredMatch line = none)
    (hr : romanMatch line = none) (h : bulletMatch line = some (c, m)) :
    match_list_item line = some (c, m, MarkerKind.bullet) := by
  simp only [match_list_item, hn, hl, hr, h]

/-- Reclassifying `a`-letter markers with an explicit `.` or `)` delimiter. -/
theorem lettered_forward {a e : Char} {c : List Char} (ha : a.isAlpha = true)
    (he : e = '.' ∨ e = ')') (htc : tailContent (' ' :: c) = some c) :
    match_list_item (a :: e :: ' ' :: c) =
      some (c, [a, e], MarkerKind.letter) := by
  have hws_a := alpha_not_ws ha
  have hnum : numberedMatch (a :: e :: ' ' :: c) = none := by
    simp only [numberedMatch, pyDropWS, dropWhile_cons_false _ hws_a,
      takeWhile_cons_false _ (alpha_not_digit ha)]
    simp
  have hlet : letteredMatch (a :: e :: ' ' :: c) = some (c, [a, e]) := by
    rcases he with rfl | rfl <;>
      simp [letteredMatch, pyDropWS, dropWhile_cons_false _ hws_a, ha, htc,
        suffixMarker, List.dropWhile_cons,
        show isWS '.' = false by decide, show isWS ')' = false by decide,
        show isDelimWS '.' = true by decide,
        show isDelimWS ')' = true by decide]
  rw [mli_of_lettered hnum hlet]

/-- Reclassifying bare letter markers (whitespace delimiter, and the content
does not start with `.` or `)` after whitespace stripping). -/
theorem lettered_forward_bare {a : Char} {c : List Char}
    (ha : a.isAlpha = true) (htcc : tailContent c = some c)
    (h1 : (List.dropWhile isWS c).head? ≠ some '.')
    (h2 : (List.dropWhile isWS c).head? ≠ some ')') :
    match_list_item (a :: ' ' :: c) = some (c, [a], MarkerKind.letter) := by
  have hws_a := alpha_not_ws ha
  have hnum : numberedMatch (a :: ' ' :: c) = none := by
    simp only [numberedMatch, pyDropWS, dropWhile_cons_false _ hws_a,
      takeWhile_cons_false _ (alpha_not_digit ha)]
    simp
  have hlet : letteredMatch (a :: ' ' :: c) = some (c, [a]) := by
    simp [letteredMatch, pyDropWS, dropWhile_cons_false _ hws_a, ha, htcc,
      suffixMarker, List.dropWhile_cons, h1, h2,
      show isWS ' ' = true by decide, show isDelimWS ' ' = true by decide]
  rw [mli_of_lettered hnum hlet]

/-- Reclassifying roman markers (at least two roman characters) with an
explicit `.` or `)` delimiter. -/
theorem roman_forward {x y e : Char} {rn' c : List Char}
    (hall : ∀ z ∈ x :: y :: rn', isRomanChar z = true)
    (he : e = '.' ∨ e = ')') (htc : tailContent (' ' :: c) = some c) :
    match_list_item (x :: y :: rn' ++ e :: ' ' :: c) =
      some (c, x :: y :: rn' ++ [e], MarkerKind.roman) := by
  have hx := hall x (by simp)
  have hy := hall y (by simp)
  have hws_x := roman_not_ws hx
  have hne : isRomanChar e = false := by rcases he with rfl | rfl <;> decide
  have hnum : numberedMatch (x :: y :: rn' ++ e :: ' ' :: c) = none := by
    simp only [numberedMatch, pyDropWS, List.cons_append,
      dropWhile_cons_false _ hws_x,
      takeWhile_cons_false _ (roman_not_digit hx)]
    simp
  have hlet : letteredMatch (x :: y :: rn' ++ e :: ' ' :: c) = none := by
    simp only [letteredMatch, pyDropWS, List.cons_append,
      dropWhile_cons_false _ hws_x]
    simp [roman_not_delim hy]
  have hrom : romanMatch (x :: y :: rn' ++ e :: ' ' :: c) =
      some (c, x :: y :: rn' ++ [e]) := by
    have htake : List.takeWhile isRomanChar (x :: y :: rn' ++ e :: ' ' :: c) =
        x :: y :: rn' := by
      have := takeWhile_append_all (e :: ' ' :: c) hall
      simpa [takeWhile_cons_false _ hne] using this
    have hdrop : List.dropWhile isRomanChar (x :: y :: rn' ++ e :: ' ' :: c) =
        e :: ' ' :: c := by
      have := dropWhile_append_all (e :: ' ' :: c) hall
      simpa [dropWhile_cons_false _ hne] using this
    have hpd : pyDropWS (x :: y :: rn' ++ e :: ' ' :: c) =
        x :: y :: rn' ++ e :: ' ' :: c := by
      simp [pyDropWS, List.cons_append, dropWhile_cons_false _ hws_x]
    simp only [romanMatch, hpd, htake, hdrop]
    rcases he with rfl | rfl <;>
      simp [htc, suffixMarker, pyDropWS, List.dropWhile_cons,
        show isWS '.' = false by decide, show isWS ')' = false by decide,
        show isDelimWS '.' = true by decide,
        show isDelimWS ')' = true by decide]
  rw [mli_of_roman hnum hlet hrom]

/-- Reclassifying bare roman markers. -/
theorem roman_forward_bare {x y : Char} {rn' c : List Char}
    (hall : ∀ z ∈ x :: y :: rn', isRomanChar z = true)
    (htcc : tailContent c = some c)
    (h1 : (List.dropWhile isWS c).head? ≠ some '.')
    (h2 : (List.dropWhile isWS c).head? ≠ some ')') :
    match_list_item (x :: y :: rn' ++ ' ' :: c) =
      some (c, x :: y :: rn', MarkerKind.roman) := by
  have hx := hall x (by simp)
  have hy := hall y (by simp)
  have hws_x := roman_not_ws hx
  have hnum : numberedMatch (x :: y :: rn' ++ ' ' :: c) = none := by
    simp only [numberedMatch, pyDropWS, List.cons_append,
      dropWhile_cons_false _ hws_x,
      takeWhile_cons_false _ (roman_not_digit hx)]
    simp
  have hlet : letteredMatch (x :: y :: rn' ++ ' ' :: c) = none := by
    simp only [letteredMatch, pyDropWS, List.cons_append,
      dropWhile_cons_false _ hws_x]
    simp [roman_not_delim hy]
  have hrom : romanMatch (x :: y :: rn' ++ ' ' :: c) =
      some (c, x :: y :: rn') := by
    have htake : List.takeWhile isRomanChar (x :: y :: rn' ++ ' ' :: c) =
        x :: y :: rn' := by
      have := takeWhile_append_all (' ' :: c) hall
      simpa [takeWhile_cons_false _ (show isRomanChar ' ' = false by decide)]
        using this
    have hdrop : List.dropWhile isRomanChar (x :: y :: rn' ++ ' ' :: c) =
        ' ' :: c := by
      have := dropWhile_append_all (' ' :: c) hall
      simpa [dropWhile_cons_false _ (show isRomanChar ' ' = false by decide)]
        using this
    have hpd : pyDropWS (x :: y :: rn' ++ ' ' :: c) =
        x :: y :: rn' ++ ' ' :: c := by
      simp [pyDropWS, List.cons_append, dropWhile_cons_false _ hws_x]
    simp only [romanMatch, hpd, htake, hdrop]
    simp [htcc, suffixMarker, pyDropWS, List.dropWhile_cons, h1, h2,
      show isWS ' ' = true by decide, show isDelimWS ' ' = true by decide]
  rw [mli_of_roman hnum hlet hrom]

/-- Reclassifying bullet markers (the reconstructed line has a single space
after the bullet character). -/
theorem bullet_forward {b : Char} {c : List Char} (hb : isBulletChar b = true)
    (htc : tailContent (' ' :: c) = some c) :
    match_list_item (b :: ' ' :: c) = some (c, [b], MarkerKind.bullet) := by
  have hbws := bullet_not_ws hb
  have hnum : numberedMatch (b :: ' ' :: c) = none := by
    simp only [numberedMatch, pyDropWS, dropWhile_cons_false _ hbws,
      takeWhile_cons_false _ (bullet_not_digit hb)]
    simp
  have hlet : letteredMatch (b :: ' ' :: c) = none := by
    simp only [letteredMatch, pyDropWS, dropWhile_cons_false _ hbws]
    simp [bullet_not_alpha hb]
  have hrom : romanMatch (b :: ' ' :: c) = none := by
    simp only [romanMatch, pyDropWS, dropWhile_cons_false _ hbws,
      takeWhile_cons_false _ (bullet_not_roman hb)]
    simp
  have hbul : bulletMatch (b :: ' ' :: c) = some (c, [b]) := by
    simp only [bulletMatch, pyDropWS, dropWhile_cons_false _ hbws]
    simp [hb, htc]
  rw [mli_of_bullet hnum hlet hrom hbul]

theorem kv_marker_empty {line c m : List Char}
    (h : kvMatch line = some (c, m)) : m = [] := by
  unfold kvMatch at h
  split at h
  · exact absurd h (by simp)
  · split at h
    · exact absurd h (by simp)
    · split at h
      · exact absurd h (by simp)
      · simp only [Option.some.injEq, Prod.mk.injEq] at h
        exact h.2.symm

/-- The three possible shapes of a lettered / roman marker (base plus kept
delimiter), together with the side conditions the bare shape guarantees about
the captured content. -/
theorem suffix_marker_cases {base : List Char} {d : Char} {r c : List Char}
    (hdel : isDelimWS d = true) (htc : tailContent r = some c) :
    suffixMarker base (pyDropWS (d :: r)) = base ++ ['.'] ∨
    suffixMarker base (pyDropWS (d :: r)) = base ++ [')'] ∨
    (suffixMarker base (pyDropWS (d :: r)) = base ∧
      (List.dropWhile isWS c).head? ≠ some '.' ∧
      (List.dropWhile isWS c).head? ≠ some ')') := by
  rcases delim_cases hdel with rfl | rfl | hwd
  · left
    simp [suffixMarker, pyDropWS,
      dropWhile_cons_false _ (show isWS '.' = false by decide)]
  · right; left
    simp [suffixMarker, pyDropWS,
      dropWhile_cons_false _ (show isWS ')' = false by decide)]
  · have hsrol : pyDropWS (d :: r) = List.dropWhile isWS r := by
      simp [pyDropWS, List.dropWhile_cons, hwd]
    rw [hsrol]
    rcases tc_cases htc with ⟨hc_eq, hc_ne⟩ | ⟨hnil, w, hw, rfl⟩
    · rw [← hc_eq]
      have hcne : c ≠ [] := by rw [hc_eq]; exact hc_ne
      obtain ⟨hd0, tl0, hc0⟩ := List.exists_cons_of_ne_nil hcne
      have hhd : isWS hd0 = false := by
        have h3 := List.head?_dropWhile_not isWS r
        rw [← hc_eq, hc0] at h3
        simpa using h3
      have hidem : List.dropWhile isWS c = c := by
        rw [hc0]; exact dropWhile_cons_false _ hhd
      by_cases hdot : c.head? = some '.'
      · left; simp [suffixMarker, hdot]
      · by_cases hpar : c.head? = some ')'
        · right; left; simp [suffixMarker, hdot, hpar]
        · right; right
          exact ⟨by simp [suffixMarker, hdot, hpar],
            by rw [hidem]; exact hdot, by rw [hidem]; exact hpar⟩
    · rw [hnil]
      right; right
      refine ⟨by simp [suffixMarker], ?_, ?_⟩
      · simp [List.dropWhile_cons, hw]
      · simp [List.dropWhile_cons, hw]

/-- Reclassifying a re-assembled numbered line. -/
theorem numbered_forward {x : Char} {ds' c : List Char}
    (hdig : ∀ z ∈ x :: ds', z.isDigit = true)
    (htc : tailContent (' ' :: c) = some c) :
    match_list_item (x :: ds' ++ '.' :: ' ' :: c) =
      some (c, x :: ds' ++ ['.'], MarkerKind.number) := by
  have hx := hdig x (by simp)
  have hxws := digit_not_ws hx
  have htake : List.takeWhile Char.isDigit (x :: ds' ++ '.' :: ' ' :: c) =
      x :: ds' := by
    have h2 := takeWhile_append_all ('.' :: ' ' :: c) hdig
    simpa [takeWhile_cons_false _ (show ('.').isDigit = false by decide)]
      using h2
  have hdrop : List.dropWhile Char.isDigit (x :: ds' ++ '.' :: ' ' :: c) =
      '.' :: ' ' :: c := by
    have h2 := dropWhile_append_all ('.' :: ' ' :: c) hdig
    simpa [dropWhile_cons_false _ (show ('.').isDigit = false by decide)]
      using h2
  have hpd : pyDropWS (x :: ds' ++ '.' :: ' ' :: c) =
      x :: ds' ++ '.' :: ' ' :: c := by
    simp [pyDropWS, List.cons_append, dropWhile_cons_false _ hxws]
  have hnum : numberedMatch (x :: ds' ++ '.' :: ' ' :: c) =
      some (c, x :: ds' ++ ['.']) := by
    simp only [numberedMatch, hpd, htake, hdrop]
    simp [htc, show isDelimWS '.' = true by decide]
  exact mli_of_numbered hnum

/-- Round trip for one classified line: re-classifying
`marker ++ " " ++ content` reproduces the triple, for every item kind other
than the parenthesized number (and for non-empty markers). -/
theorem mli_roundtrip {line c m : List Char} {k : MarkerKind}
    (h : match_list_item line = some (c, m, k)) (hm : m ≠ [])
    (hk : k ≠ MarkerKind.parenNumber) :
    match_list_item (m ++ ' ' :: c) = some (c, m, k) := by
  rcases mli_inv h with ⟨rfl, hmt⟩ | ⟨rfl, hmt⟩ | ⟨rfl, hln, hmt⟩ |
    ⟨rfl, hmt⟩ | ⟨rfl, hmt⟩ | ⟨rfl, hmt⟩ | ⟨rfl, hme, hc⟩
  · -- number
    obtain ⟨ds, d, r, hds, hne, hdig, hline, hdel, htc, rfl⟩ :=
      numbered_inv hmt
    obtain ⟨x, ds', rfl⟩ := List.exists_cons_of_ne_nil hne
    have h2 : (x :: ds' ++ ['.']) ++ ' ' :: c = x :: ds' ++ '.' :: ' ' :: c :=
      by simp
    rw [h2]
    exact numbered_forward hdig (tc_ws_cons (by decide) htc)
  · -- letter
    obtain ⟨a, d, r, hline, ha, hdel, htc, hmk⟩ := lettered_inv hmt
    rcases @suffix_marker_cases [a] d r c hdel htc with h3 | h3 |
      ⟨h3, h4, h5⟩
    · rw [hmk, h3]
      exact lettered_forward ha (Or.inl rfl) (tc_ws_cons (by decide) htc)
    · rw [hmk, h3]
      exact lettered_forward ha (Or.inr rfl) (tc_ws_cons (by decide) htc)
    · rw [hmk, h3]
      exact lettered_forward_bare ha (tc_idem htc) h4 h5
  · -- roman
    obtain ⟨rn, d, r, hrn_eq, hrn_ne, hrall, hline, hdel, htc, hmk⟩ :=
      roman_inv hmt
    match rn, hrn_ne with
    | [x], _ =>
      -- impossible: a one-character roman run would have matched the
      -- lettered pattern, which is tried first
      have hcontra : letteredMatch line =
          some (c, suffixMarker [x] (pyDropWS (d :: r))) := by
        unfold letteredMatch
        rw [show pyDropWS line = x :: d :: r by simpa using hline]
        simp [roman_alpha (hrall x (by simp)), hdel, htc]
      rw [hcontra] at hln
      exact absurd hln (by simp)
    | x :: y :: rn', _ =>
      rcases @suffix_marker_cases (x :: y :: rn') d r c hdel htc with h3 |
        h3 | ⟨h3, h4, h5⟩
      · rw [hmk, h3]
        have heq2 : ((x :: y :: rn') ++ ['.']) ++ ' ' :: c =
            x :: y :: rn' ++ '.' :: ' ' :: c := by simp
        rw [heq2]
        exact roman_forward hrall (Or.inl rfl) (tc_ws_cons (by decide) htc)
      · rw [hmk, h3]
        have heq2 : ((x :: y :: rn') ++ [')']) ++ ' ' :: c =
            x :: y :: rn' ++ ')' :: ' ' :: c := by simp
        rw [heq2]
        exact roman_forward hrall (Or.inr rfl) (tc_ws_cons (by decide) htc)
      · rw [hmk, h3]
        exact roman_forward_bare hrall (tc_idem htc) h4 h5
  · -- bullet
    obtain ⟨b, r, hline, hb, htc, rfl⟩ := bullet_inv hmt
    exact bullet_forward hb (tc_ws_cons (by decide) htc)
  · -- parenthesized number: excluded
    exact absurd rfl hk
  · -- key-value: the marker is always empty
    exact absurd (kv_marker_empty hmt) hm
  · -- unmarked: the marker is always empty
    exact absurd hme hm

/-! ## Claim theorems -/

/-- C1 (the code side of the divergence): on the claim's own scenario input
`"1. Top\n  a. Mid\n    i. Deep"` the code classifies `i.` through the
*lettered* pattern (which is tried before the roman pattern), and
`_determine_marker_type` likewise reports `letter` for the marker `i.`; the
third item therefore gets level 1 with parent 1 — not markerKind roman /
level 2 / parent 2 as the claim (and the repository's own
`test_hierarchical_list`) require. -/
theorem c1_single_letter_roman_eval :
    extract_items "1. Top\n  a. Mid\n    i. Deep".data =
      [⟨1, "Top".data, "1.".data, MarkerKind.number, none, 0, none⟩,
       ⟨2, "Mid".data, "a.".data, MarkerKind.letter, none, 1, some 1⟩,
       ⟨3, "Deep".data, "i.".data, MarkerKind.letter, none, 1, some 1⟩] ∧
    determine_marker_type "i.".data = "letter" := by decide

/-- C2, counterexample to the claim as stated: in
`"1. A\nii. B"` the second item (`ii.` forces level 2) has parentId 1, but
item 1 has level 0, so its level is not `level(parent) + 1`. -/
theorem c2_parent_level_counterexample :
    ∃ it ∈ extract_items "1. A\nii. B".data, ∃ p, it.parentId = some p ∧
      ∃ jt ∈ extract_items "1. A\nii. B".data, jt.id = p ∧
        it.level ≠ jt.level + 1 := by decide

/-- C2 as amended: every item's parent (when present) is an earlier-emitted
item of *strictly smaller* level (exactly `level - 1` only when such an item
exists, by the fallback in `_find_parent_for_level`), and a level-0 item never
has a parent. -/
theorem c2_parent_level_amended (text : List Char) (it : Item)
    (h : it ∈ extract_items text) :
    (it.level = 0 → it.parentId = none) ∧
    ∀ p, it.parentId = some p →
      ∃ jt ∈ extract_items text, jt.id = p ∧ jt.level < it.level := by
  have hinv := (extract_items_inv text).2.2.1
  unfold extract_items at h ⊢
  exact hinv it h

/-- Witness for `c2_parent_level_amended` at the input `"1. A\n  - B"` and its
second item. -/
theorem c2_parent_level_witness :
    ((Item.mk 2 "B".data "-".data MarkerKind.bullet none 1 (some 1)).level = 0 →
      (Item.mk 2 "B".data "-".data MarkerKind.bullet none 1
        (some 1)).parentId = none) ∧
    ∀ p, (Item.mk 2 "B".data "-".data MarkerKind.bullet none 1
        (some 1)).parentId = some p →
      ∃ jt ∈ extract_items "1. A\n  - B".data, jt.id = p ∧
        jt.level < (Item.mk 2 "B".data "-".data MarkerKind.bullet none 1
          (some 1)).level :=
  c2_parent_level_amended "1. A\n  - B".data
    (Item.mk 2 "B".data "-".data MarkerKind.bullet none 1 (some 1)) (by decide)

/-- C3, counterexample to the claim as stated: the item extracted from
`"(1) X"` has marker `"1"` (parenthesized number, digits without
parentheses), but re-classifying `"1 X"` takes the numbered branch and yields
marker `"1."` and kind number — not the same triple. -/
theorem c3_roundtrip_counterexample :
    extract_items "(1) X".data =
      [⟨1, "X".data, "1".data, MarkerKind.parenNumber, none, 0, none⟩] ∧
    match_list_item ("1".data ++ ' ' :: "X".data) =
      some ("X".data, "1.".data, MarkerKind.number) ∧
    "1.".data ≠ "1".data ∧
    MarkerKind.number ≠ MarkerKind.parenNumber := by decide

/-- C3 as amended: for every extracted item with a non-empty marker whose
markerKind is not parenthesizedNumber, re-classifying the single line
`marker ++ " " ++ content` yields the same `(content, marker, markerKind)`
triple.  (Parenthesized-number items are the exception: their marker drops
the parentheses, so the reassembled line re-classifies as a numbered item
with a normalized `digits + "."` marker.) -/
theorem c3_roundtrip_amended (text : List Char) (it : Item)
    (h : it ∈ extract_items text) (hm : it.marker ≠ [])
    (hk : it.kind ≠ MarkerKind.parenNumber) :
    match_list_item (it.marker ++ ' ' :: it.content) =
      some (it.content, it.marker, it.kind) := by
  have hcls := (extract_items_inv text).2.2.2
  unfold extract_items at h
  obtain ⟨line, hline⟩ := hcls it h
  exact mli_roundtrip hline hm hk

/-- Witness for `c3_roundtrip_amended` at the input `"1. Hello"` and its
single item. -/
theorem c3_roundtrip_witness :
    match_list_item
        ((Item.mk 1 "Hello".data "1.".data MarkerKind.number none 0
          none).marker ++ ' ' ::
          (Item.mk 1 "Hello".data "1.".data MarkerKind.number none 0
            none).content) =
      some ("Hello".data, "1.".data, MarkerKind.number) :=
  c3_roundtrip_amended "1. Hello".data
    (Item.mk 1 "Hello".data "1.".data MarkerKind.number none 0 none)
    (by decide) (by decide) (by decide)

/-- C4, counterexample to the claim as stated (using the claim's own
example): a line beginning `1)` yields marker `"1."`, not `"1)"` — the
numbered branch always appends `"."` to the digits, whatever delimiter
actually appeared. -/
theorem c4_marker_counterexample :
    match_list_item "1) X".data =
      some ("X".data, "1.".data, MarkerKind.number) ∧
    "1.".data ≠ "1)".data := by decide

/-- C4 as amended: for a number-kind item the marker is the line's leading
digit run with `"."` appended, regardless of the delimiter (`.`, `)` or
whitespace) that actually followed the digits; for a parenthesized-number
item the marker is the digits without the parentheses. -/
theorem c4_marker_amended (line c m : List Char) (k : MarkerKind)
    (h : match_list_item line = some (c, m, k)) :
    (k = MarkerKind.number →
      ∃ ds, ds ≠ [] ∧ (∀ x ∈ ds, x.isDigit = true) ∧
        ds = (pyDropWS line).takeWhile Char.isDigit ∧ m = ds ++ ['.']) ∧
    (k = MarkerKind.parenNumber →
      ∃ ds, ds ≠ [] ∧ (∀ x ∈ ds, x.isDigit = true) ∧ m = ds ∧
        ∃ rest, pyDropWS line = '(' :: ds ++ ')' :: rest) := by
  rcases mli_inv h with ⟨rfl, hm⟩ | ⟨rfl, hm⟩ | ⟨rfl, _, hm⟩ | ⟨rfl, hm⟩ |
    ⟨rfl, hm⟩ | ⟨rfl, hm⟩ | ⟨rfl, hm, hc⟩
  · refine ⟨fun _ => ?_, fun he => absurd he (by decide)⟩
    obtain ⟨ds, d, r, hds, hne, hdig, _, _, _, rfl⟩ := numbered_inv hm
    exact ⟨ds, hne, hdig, hds, rfl⟩
  · exact ⟨fun he => absurd he (by decide), fun he => absurd he (by decide)⟩
  · exact ⟨fun he => absurd he (by decide), fun he => absurd he (by decide)⟩
  · exact ⟨fun he => absurd he (by decide), fun he => absurd he (by decide)⟩
  · refine ⟨fun he => absurd he (by decide), fun _ => ?_⟩
    obtain ⟨ds, r2, hne, hdig, hline, _, hmds⟩ := paren_inv hm
    exact ⟨ds, hne, hdig, hmds, r2, hline⟩
  · exact ⟨fun he => absurd he (by decide), fun he => absurd he (by decide)⟩
  · exact ⟨fun he => absurd he (by decide), fun he => absurd he (by decide)⟩

/-- Witness for `c4_marker_amended` at the line `1) X` (number case) — the
marker is the digit run `1` with `.` appended. -/
theorem c4_marker_witness :
    (MarkerKind.number = MarkerKind.number →
      ∃ ds, ds ≠ [] ∧ (∀ x ∈ ds, x.isDigit = true) ∧
        ds = (pyDropWS "1) X".data).takeWhile Char.isDigit ∧
        "1.".data = ds ++ ['.']) ∧
    (MarkerKind.number = MarkerKind.parenNumber →
      ∃ ds, ds ≠ [] ∧ (∀ x ∈ ds, x.isDigit = true) ∧ "1.".data = ds ∧
        ∃ rest, pyDropWS "1) X".data = '(' :: ds ++ ')' :: rest) :=
  c4_marker_amended "1) X".data "X".data "1.".data MarkerKind.number
    (by decide)

/-- C5, counterexample to the claim as stated: `-Foo` (bullet character
immediately followed by non-whitespace) *is* classified as a bullet — the
bullet regex uses `\s*`, so no whitespace is required — rather than as
unmarked content. -/
theorem c5_bullet_counterexample :
    match_list_item "-Foo".data =
      some ("Foo".data, "-".data, MarkerKind.bullet) ∧
    extract_items "-Foo".data =
      [⟨1, "Foo".data, "-".data, MarkerKind.bullet, none, 0, none⟩] := by decide

/-- C5 as amended: a line consisting of a bullet character (`*`, `-`, `+`,
`•`) followed immediately by non-whitespace content is classified as a bullet
item whose marker is the bullet character and whose content is the remainder
of the line (the bullet pattern permits zero whitespace after the bullet). -/
theorem c5_bullet_amended (b hd : Char) (tl : List Char)
    (hb : isBulletChar b = true) (hhd : isWS hd = false) :
    match_list_item (b :: hd :: tl) =
      some (hd :: tl, [b], MarkerKind.bullet) := by
  have hbws := bullet_not_ws hb
  have hnum : numberedMatch (b :: hd :: tl) = none := by
    simp only [numberedMatch, pyDropWS, dropWhile_cons_false _ hbws,
      takeWhile_cons_false _ (bullet_not_digit hb)]
    simp
  have hlet : letteredMatch (b :: hd :: tl) = none := by
    simp only [letteredMatch, pyDropWS, dropWhile_cons_false _ hbws]
    simp [bullet_not_alpha hb]
  have hrom : romanMatch (b :: hd :: tl) = none := by
    simp only [romanMatch, pyDropWS, dropWhile_cons_false _ hbws,
      takeWhile_cons_false _ (bullet_not_roman hb)]
    simp
  have hbul : bulletMatch (b :: hd :: tl) = some (hd :: tl, [b]) := by
    simp only [bulletMatch, pyDropWS, dropWhile_cons_false _ hbws]
    simp [hb, tc_cons_not_ws _ hhd]
  simp only [match_list_item, hnum, hlet, hrom, hbul]

/-- Witness for `c5_bullet_amended` at the line `-Foo`. -/
theorem c5_bullet_witness :
    match_list_item ('-' :: 'F' :: ['o', 'o']) =
      some ('F' :: ['o', 'o'], ['-'], MarkerKind.bullet) :=
  c5_bullet_amended '-' 'F' ['o', 'o'] (by decide) (by decide)

theorem dropWS_id {l : List Char} (h : ∀ x ∈ l, isWS x = false) :
    pyDropWS l = l := by
  cases l with
  | nil => rfl
  | cons x xs => exact dropWhile_cons_false _ (h x (by simp))

theorem rstrip_id {l : List Char} (h : ∀ x ∈ l, isWS x = false) :
    pyRstrip l = l := by
  unfold pyRstrip
  have h2 : List.dropWhile isWS l.reverse = l.reverse := by
    cases hrev : l.reverse with
    | nil => rfl
    | cons x xs =>
      refine dropWhile_cons_false _ (h x ?_)
      rw [← List.mem_reverse, hrev]
      simp
  rw [h2, List.reverse_reverse]

theorem strip_id {l : List Char} (h : ∀ x ∈ l, isWS x = false) :
    pyStrip l = l := by
  unfold pyStrip
  rw [rstrip_id h, dropWS_id h]

theorem splitOnNl_single {l : List Char} (h : ∀ x ∈ l, x ≠ '\n') :
    splitOnNl l = [l] := by
  induction l with
  | nil => rfl
  | cons x xs ih =>
    have h2 := ih fun y hy => h y (by simp [hy])
    simp only [splitOnNl, h2]
    simp [h x (by simp)]

theorem plusContent_none_no_ws {r : List Char}
    (h : ∀ x ∈ r, isWS x = false) : plusContent r = none := by
  cases r with
  | nil => rfl
  | cons x xs => simp [plusContent, h x (by simp)]

theorem no_roman_of_not_word {c : Char} (h : isWordChar c = false) :
    isRomanChar c = false := by
  cases hr : isRomanChar c
  · rfl
  · have h2 := no_alpha_of_not_word h
    rw [roman_alpha hr] at h2
    exact h2

/-- C6, counterexample to the claim as stated: the punctuation-only lines
`-` and `*` *do* produce an item — the `_resembles_list_item` fallback accepts
any line starting with `-` or `*` — while a bare `#` yields none. -/
theorem c6_punct_counterexample :
    extract_items "-".data =
      [⟨1, "-".data, [], MarkerKind.unmarked, none, 0, none⟩] ∧
    extract_items "*".data =
      [⟨1, "*".data, [], MarkerKind.unmarked, none, 0, none⟩] ∧
    extract_items "#".data = [] := by decide

/-- C6 as amended: a non-empty line consisting only of punctuation (no word
characters, no whitespace) whose first character is not one of the bullet
characters `*`, `-`, `+`, `•` produces no item (and the extractor, being a
total function, cannot crash); lines starting with a bullet character are the
exception — e.g. a bare `-` becomes an unmarked item with content `-`. -/
theorem c6_punct_amended (c : Char) (r : List Char)
    (hall : ∀ x ∈ c :: r, isWordChar x = false ∧ isWS x = false)
    (hb : isBulletChar c = false) :
    extract_items (c :: r) = [] := by
  have hws : ∀ x ∈ c :: r, isWS x = false := fun x hx => (hall x hx).2
  have hword : ∀ x ∈ c :: r, isWordChar x = false := fun x hx => (hall x hx).1
  have hnl : ∀ x ∈ c :: r, x ≠ '\n' := by
    intro x hx hxe
    rw [hxe] at hx
    have := hws _ hx
    simp [isWS] at this
  have hcw := hword c (by simp)
  have hcs := hws c (by simp)
  -- every matcher rejects the line
  have hnum : numberedMatch (c :: r) = none := by
    simp only [numberedMatch, pyDropWS, dropWhile_cons_false _ hcs,
      takeWhile_cons_false _ (no_digit_of_not_word hcw)]
    simp
  have hlet : letteredMatch (c :: r) = none := by
    simp only [letteredMatch, pyDropWS, dropWhile_cons_false _ hcs]
    cases r with
    | nil => rfl
    | cons d rest => simp [no_alpha_of_not_word hcw]
  have hrom : romanMatch (c :: r) = none := by
    simp only [romanMatch, pyDropWS, dropWhile_cons_false _ hcs,
      takeWhile_cons_false _ (no_roman_of_not_word hcw)]
    simp
  have hbul : bulletMatch (c :: r) = none := by
    simp only [bulletMatch, pyDropWS, dropWhile_cons_false _ hcs]
    simp [hb]
  have hpar : parenMatch (c :: r) = none := by
    simp only [parenMatch, pyDropWS, dropWhile_cons_false _ hcs]
    by_cases hc : c = '('
    · subst hc
      cases r with
      | nil => rfl
      | cons d rest =>
        have hd := no_digit_of_not_word (hword d (by simp))
        simp [takeWhile_cons_false _ hd]
    · -- the pattern `'(' :: r` does not match
      cases hcc : c
      rename_i n hv
      simp_all [parenMatch]
  have hkv : kvMatch (c :: r) = none := by
    simp only [kvMatch]
    cases hdp : List.dropWhile (fun x => decide (x ≠ ':')) (c :: r) with
    | nil => rfl
    | cons y r2 =>
      have hr2 : ∀ x ∈ r2, isWS x = false := by
        intro x hx
        refine hws x ?_
        exact (List.dropWhile_sublist _).subset (by rw [hdp]; simp [hx])
      simp [plusContent_none_no_ws hr2]
  have hres : resembles_list_item (c :: r) = false := by
    simp only [resembles_list_item, strip_id hws]
    have hpc : plusContent r = none :=
      plusContent_none_no_ws fun x hx => hws x (by simp [hx])
    have hc1 : c ≠ '-' := fun he => by
      rw [he] at hb; exact absurd hb (by decide)
    have hc2 : c ≠ '*' := fun he => by
      rw [he] at hb; exact absurd hb (by decide)
    simp [hpc, hc1, hc2]
  have hmli : match_list_item (c :: r) = none := by
    simp only [match_list_item, hnum, hlet, hrom, hbul, hpar, hkv,
      fallbackResembles, hres]
    simp
  have hhm : headingMatch (c :: r) = none := by
    simp only [headingMatch, pyDropWS, dropWhile_cons_false _ hcs]
    split
    · rfl
    · have hsub : ∀ x ∈ List.dropWhile (fun x => decide (x = '#')) (c :: r),
          isWS x = false :=
        fun x hx => hws x ((List.dropWhile_sublist _).subset hx)
      rw [plusContent_none_no_ws hsub]
      rfl
  unfold extract_items
  rw [strip_id hws, splitOnNl_single hnl]
  show (processLine initState (c :: r)).items = []
  simp only [processLine, rstrip_id hws, dropWS_id hws, hhm, hmli]
  simp [initState]

/-- Witness for `c6_punct_amended` at the bare-`#` line from the claim. -/
theorem c6_punct_witness : extract_items ['#'] = [] :=
  c6_punct_amended '#' [] (by decide) (by decide)

/-- C7, counterexample to the claim as stated: on the input
`"# First Section\n## Subsection\n# Second Section"` the snapshot extractor
takes its hardcoded test-fitting branch and returns six items, while the
packaged extractor (which has no such branch) returns no items at all. -/
theorem c7_snapshot_counterexample :
    snapshot_extract_items
        "# First Section\n## Subsection\n# Second Section".data =
      sectionRecognitionItems ∧
    (extract_items
        "# First Section\n## Subsection\n# Second Section".data).map toPy =
      [] ∧
    sectionRecognitionItems ≠ [] := by decide

/-- C7 as amended: on every input on which none of the snapshot's three
hardcoded test-case triggers fires, the snapshot extractor and the packaged
extractor produce the same item list (same ids, contents, markers, sections,
levels and parent ids). -/
theorem c7_snapshot_amended (text : List Char)
    (h1 : triggerSectionRecognition text = false)
    (h2 : triggerHierarchicalList text = false)
    (h3 : triggerDeeplyNested text = false) :
    snapshot_extract_items text = (extract_items text).map toPy := by
  unfold snapshot_extract_items
  simp [h1, h2, h3]

/-- Witness for `c7_snapshot_amended` at the input `"1. A"`. -/
theorem c7_snapshot_witness :
    snapshot_extract_items "1. A".data = (extract_items "1. A".data).map toPy :=
  c7_snapshot_amended "1. A".data (by decide) (by decide) (by decide)

/-- C8: for every input text the ids of the extracted items are exactly
`1, 2, ..., n` in output order. -/
theorem c8_ids_contiguous (text : List Char) :
    (extract_items text).map (fun it => it.id) =
      List.range' 1 (extract_items text).length := by
  unfold extract_items
  exact (extract_items_inv text).2.1

/-- C9: an item's section is the title of the most recently seen heading line
preceding it (absent when none precedes), independently of the heading
stack — the extractor agrees with the claim-side fold `sectionSpecExtract` on
every input — and on the spec's scenario the three items carry sections
Alpha, Beta, Gamma. -/
theorem c9_section_assignment :
    (∀ text, extract_items text = sectionSpecExtract text) ∧
    (extract_items "# Alpha\n1. X\n## Beta\n- Y\n# Gamma\n- Z".data).map
        (fun it => it.sectionName) =
      [some "Alpha".data, some "Beta".data, some "Gamma".data] := by
  constructor
  · intro text
    unfold extract_items sectionSpecExtract
    exact runLines_proj _ initState
  · decide

/-- C10: extraction is deterministic — it is a pure function of the input
text, so two invocations (here: on two managers with arbitrary prior state)
return identical item sequences. -/
theorem c10_deterministic (text : List Char)
    (mgr1 mgr2 : EnhancedResponseManager) :
    extract_items text = extract_items text ∧
    (managerStore mgr1 text).lastItems = (managerStore mgr2 text).lastItems :=
  ⟨rfl, rfl⟩

end LangSelect
